import Mathlib

/-!
Verification of the pyfhog FHOG feature-extraction kernel.

The computational kernel (the C++ `fhog_wrapper.cpp` vendored-dlib FHOG
routine exposed as `pyfhog.extract_fhog_features`) is not part of the
checked-in sources here (only its tests and packaging are), so the kernel
is modelled from the specification: per-pixel centered-difference
gradients with channel-max selection, trilinear soft binning into an
18-bin histogram per cell, 2×2 block normalization with truncation, and
assembly of 31 values per cell in row-major cell order.
-/

set_option maxHeartbeats 1000000

/-- Modelled from the spec: an immutable H×W×3 image of 8-bit channel
samples (the missing kernel's input type); `pix y x k` is the sample of
channel `k` at row `y`, column `x`. -/
structure Img where
  H : ℕ
  W : ℕ
  pix : ℕ → ℕ → Fin 3 → ℕ

/-- Clamp an integer coordinate into the index range `[0, n-1]`. -/
def clampIdx (n : ℕ) (i : ℤ) : ℕ := (min i ((n : ℤ) - 1)).toNat

/-- Modelled from the spec: reading a pixel with replicated/clamped
border behavior ("border pixels use replicated/clamped neighbor values"). -/
def readPix (img : Img) (y x : ℤ) (k : Fin 3) : ℤ :=
  (img.pix (clampIdx img.H y) (clampIdx img.W x) k : ℤ)

/-- Modelled from the spec: per-channel centered first-difference
gradient `(pixel[x+1] - pixel[x-1], pixel[y+1] - pixel[y-1])`. -/
def gradCh (img : Img) (y x : ℕ) (k : Fin 3) : ℤ × ℤ :=
  (readPix img (y : ℤ) ((x : ℤ) + 1) k - readPix img (y : ℤ) ((x : ℤ) - 1) k,
   readPix img ((y : ℤ) + 1) (x : ℤ) k - readPix img ((y : ℤ) - 1) (x : ℤ) k)

/-- Squared magnitude of an integer gradient vector. -/
def sqMag (g : ℤ × ℤ) : ℤ := g.1 * g.1 + g.2 * g.2

/-- Modelled from the spec: reduce across channels by selecting, at each
pixel, the channel whose gradient vector has the largest magnitude (the
channel-max rule, not an average). -/
def selGrad (img : Img) (y x : ℕ) : ℤ × ℤ :=
  let g0 := gradCh img y x 0
  let g1 := gradCh img y x 1
  let g2 := gradCh img y x 2
  if sqMag g1 ≤ sqMag g0 ∧ sqMag g2 ≤ sqMag g0 then g0
  else if sqMag g2 ≤ sqMag g1 then g1 else g2

/-- Modelled from the spec: the image obtained by using a single channel
alone for gradients (that channel replicated over all three channels). -/
def channelOnly (img : Img) (k : Fin 3) : Img :=
  ⟨img.H, img.W, fun y x _ => img.pix y x k⟩

noncomputable section

/-- Modelled from the spec: gradient magnitude `sqrt(dx^2 + dy^2)`. -/
def gmag (g : ℤ × ℤ) : ℝ := Real.sqrt ((g.1 : ℝ) ^ 2 + (g.2 : ℝ) ^ 2)

/-- Modelled from the spec: gradient angle `atan2(dy, dx)` mapped into
`[0, 2π)`. -/
def gangle (g : ℤ × ℤ) : ℝ :=
  let a := Complex.arg ((g.1 : ℝ) + (g.2 : ℝ) * Complex.I)
  if a < 0 then a + 2 * Real.pi else a

/-- Continuous orientation-bin coordinate: the angle in units of the bin
width `2π/18`, shifted by one half so that integer values sit at bin
centers. -/
def binCoord (g : ℤ × ℤ) : ℝ := gangle g * 18 / (2 * Real.pi) - 1 / 2

/-- Modelled from the spec: soft orientation binning — the vote is split
by linear interpolation between the two (circularly adjacent) bin centers
nearest the pixel's continuous angle. -/
def orientW (g : ℤ × ℤ) (b : Fin 18) : ℝ :=
  (if ((b : ℕ) : ℤ) = ⌊binCoord g⌋ % 18 then 1 - Int.fract (binCoord g) else 0) +
    (if ((b : ℕ) : ℤ) = (⌊binCoord g⌋ + 1) % 18 then Int.fract (binCoord g) else 0)

/-- Continuous cell coordinate of the pixel center along one axis, using
cell centers (not cell edges) as interpolation anchors. -/
def cellPos (s i : ℕ) : ℝ := ((i : ℝ) + 1 / 2) / (s : ℝ) - 1 / 2

/-- Pure bilinear weight of pixel coordinate `i` on cell index `j` along
one axis, ignoring grid bounds. -/
def pureW (s i j : ℕ) : ℝ :=
  (if ⌊cellPos s i⌋ = (j : ℤ) then 1 - Int.fract (cellPos s i) else 0) +
    (if ⌊cellPos s i⌋ + 1 = (j : ℤ) then Int.fract (cellPos s i) else 0)

/-- Modelled from the spec: the four (cell, weight) targets of a pixel's
bilinear spatial interpolation (up to four cells receive weighted shares,
based on the fractional offset from the containing cell's center). -/
def pixelTargets (s y x : ℕ) : List ((ℤ × ℤ) × ℝ) :=
  [((⌊cellPos s y⌋, ⌊cellPos s x⌋),
      (1 - Int.fract (cellPos s y)) * (1 - Int.fract (cellPos s x))),
   ((⌊cellPos s y⌋, ⌊cellPos s x⌋ + 1),
      (1 - Int.fract (cellPos s y)) * Int.fract (cellPos s x)),
   ((⌊cellPos s y⌋ + 1, ⌊cellPos s x⌋),
      Int.fract (cellPos s y) * (1 - Int.fract (cellPos s x))),
   ((⌊cellPos s y⌋ + 1, ⌊cellPos s x⌋ + 1),
      Int.fract (cellPos s y) * Int.fract (cellPos s x))]

/-- Modelled from the spec: the per-cell 18-bin histogram, accumulated
over every pixel by trilinear interpolation; a share whose target cell
lies outside the `(H/s) × (W/s)` grid is dropped (the bounds guard in the
accumulation condition), never wrapped or clamped. -/
def cellHist (grad : ℕ → ℕ → ℤ × ℤ) (H W s : ℕ) (r c : ℕ) (b : Fin 18) : ℝ :=
  ∑ y ∈ Finset.range H, ∑ x ∈ Finset.range W,
    ((pixelTargets s y x).map (fun tw =>
      if tw.1.1 = (r : ℤ) ∧ tw.1.2 = (c : ℤ) ∧
          0 ≤ tw.1.1 ∧ tw.1.1 < ((H / s : ℕ) : ℤ) ∧
          0 ≤ tw.1.2 ∧ tw.1.2 < ((W / s : ℕ) : ℤ)
      then tw.2 * (orientW (grad y x) b * gmag (grad y x)) else 0)).sum

/-- Modelled from the spec: the small additive epsilon added to each
block energy before the inverse square root; the spec fixes no numeric
value ("a small additive epsilon"), pinned here to `10⁻⁴`. -/
def epsNorm : ℝ := 1 / 10000

/-- Modelled from the spec: the truncation limit for normalized values
(`0.2`). -/
def truncLimit : ℝ := 1 / 5

/-- Modelled from the spec: the empirical texture-energy scaling constant
`0.2357`. -/
def texConst : ℝ := 2357 / 10000

/-- Histogram lookup as bounds-checked index arithmetic: out-of-grid
neighbors contribute an all-zero histogram. -/
def histZ (gh gw : ℕ) (h : ℕ → ℕ → Fin 18 → ℝ) (r c : ℤ) (b : Fin 18) : ℝ :=
  if 0 ≤ r ∧ r < (gh : ℤ) ∧ 0 ≤ c ∧ c < (gw : ℤ) then h r.toNat c.toNat b else 0

/-- Diagonal direction of each of the four 2×2 neighbor groupings
(lower-right, lower-left, upper-right, upper-left). -/
def groupDir : Fin 4 → ℤ × ℤ := ![(1, 1), (1, -1), (-1, 1), (-1, -1)]

/-- Modelled from the spec: the 2×2-pooled histogram of grouping `d` at
cell `(r, c)` — this cell plus its row neighbor, column neighbor and
diagonal neighbor in direction `groupDir d`. -/
def pooled (gh gw : ℕ) (h : ℕ → ℕ → Fin 18 → ℝ) (r c : ℕ) (d : Fin 4) (b : Fin 18) : ℝ :=
  histZ gh gw h (r : ℤ) (c : ℤ) b +
    histZ gh gw h ((r : ℤ) + (groupDir d).1) (c : ℤ) b +
    histZ gh gw h (r : ℤ) ((c : ℤ) + (groupDir d).2) b +
    histZ gh gw h ((r : ℤ) + (groupDir d).1) ((c : ℤ) + (groupDir d).2) b

/-- Modelled from the spec: the normalization energy of grouping `d` —
the sum over the 18 bins of the squared pooled histogram. -/
def groupEnergy (gh gw : ℕ) (h : ℕ → ℕ → Fin 18 → ℝ) (r c : ℕ) (d : Fin 4) : ℝ :=
  ∑ b : Fin 18, (pooled gh gw h r c d b) ^ 2

/-- Modelled from the spec: the normalization scale of grouping `d`, the
inverse square root of the epsilon-augmented energy. -/
def normScale (gh gw : ℕ) (h : ℕ → ℕ → Fin 18 → ℝ) (r c : ℕ) (d : Fin 4) : ℝ :=
  (Real.sqrt (groupEnergy gh gw h r c d + epsNorm))⁻¹

/-- Modelled from the spec: contrast-sensitive output for signed bin `b`:
the average across the four scales of `min(histogram[b] * scale,
truncationLimit)`. -/
def sensOut (gh gw : ℕ) (h : ℕ → ℕ → Fin 18 → ℝ) (r c : ℕ) (b : Fin 18) : ℝ :=
  (∑ d : Fin 4, min (h r c b * normScale gh gw h r c d) truncLimit) / 4

/-- Modelled from the spec: contrast-insensitive output for unsigned bin
`b`, computed identically from the pooled histogram
`hist[b] + hist[b+9]` with the same four scales and truncation. -/
def insOut (gh gw : ℕ) (h : ℕ → ℕ → Fin 18 → ℝ) (r c : ℕ) (b : Fin 9) : ℝ :=
  (∑ d : Fin 4,
    min ((h r c ⟨(b : ℕ), by omega⟩ + h r c ⟨(b : ℕ) + 9, by omega⟩) *
          normScale gh gw h r c d) truncLimit) / 4

/-- Modelled from the spec: the texture-energy output values, `0.2357 *
scale` for each of the four neighbor groupings. -/
def texOut (gh gw : ℕ) (h : ℕ → ℕ → Fin 18 → ℝ) (r c : ℕ) (d : Fin 4) : ℝ :=
  texConst * normScale gh gw h r c d

/-- Modelled from the spec: a cell's 31 output values in the fixed order
[18 contrast-sensitive, 9 contrast-insensitive, 4 energies]. -/
def cellVec (gh gw : ℕ) (h : ℕ → ℕ → Fin 18 → ℝ) (r c : ℕ) : List ℝ :=
  List.ofFn (sensOut gh gw h r c) ++ List.ofFn (insOut gh gw h r c) ++
    List.ofFn (texOut gh gw h r c)

/-- The full pipeline downstream of gradient selection, as a function of
the per-pixel selected gradient field: cells are laid out in row-major
grid order, rows outer, columns inner. -/
def fhogOfGrad (grad : ℕ → ℕ → ℤ × ℤ) (H W s : ℕ) : List ℝ :=
  (List.range (H / s)).flatMap fun r =>
    (List.range (W / s)).flatMap fun c =>
      cellVec (H / s) (W / s) (cellHist grad H W s) r c

/-- Modelled from the spec: the FHOG kernel — the flat descriptor of
`floor(H/s) * floor(W/s) * 31` values for an image and a cell size. -/
def extract_fhog_features (img : Img) (s : ℕ) : List ℝ :=
  fhogOfGrad (selGrad img) img.H img.W s

end

/-- Length of a flatMap whose pieces all have the same length. -/
theorem length_flatMap_const {α β : Type} (l : List α) (f : α → List β) (k : ℕ)
    (hk : ∀ a ∈ l, (f a).length = k) : (l.flatMap f).length = l.length * k := by
  induction l with
  | nil => simp
  | cons a t ih =>
    simp only [List.flatMap_cons, List.length_append, List.length_cons]
    rw [hk a (by simp), ih (fun a ha => hk a (by simp [ha]))]
    ring

theorem cellVec_length (gh gw : ℕ) (h : ℕ → ℕ → Fin 18 → ℝ) (r c : ℕ) :
    (cellVec gh gw h r c).length = 31 := by
  simp [cellVec]

theorem fhogOfGrad_length (grad : ℕ → ℕ → ℤ × ℤ) (H W s : ℕ) :
    (fhogOfGrad grad H W s).length = H / s * (W / s) * 31 := by
  unfold fhogOfGrad
  rw [length_flatMap_const _ _ ((W / s) * 31)]
  · simp [mul_assoc]
  · intro r _
    rw [length_flatMap_const _ _ 31]
    · simp
    · intro c _
      exact cellVec_length _ _ _ _ _

/-- A concrete 96×96 all-constant test image. -/
def img96 : Img := ⟨96, 96, fun _ _ _ => 7⟩

/-- A concrete 4×4 test image (smaller than the cell size 8). -/
def img4 : Img := ⟨4, 4, fun y x _ => y + x⟩

/-- C1: for every H×W×3 8-bit image and every positive cell size `s`,
`extract_fhog_features` returns a flat sequence of values whose length
equals `floor(H/s) * floor(W/s) * 31`. -/
theorem C1_shape_law (img : Img) (s : ℕ)
    (h8 : ∀ y x c, img.pix y x c < 256) (hs : 0 < s) :
    (extract_fhog_features img s).length = img.H / s * (img.W / s) * 31 :=
  fhogOfGrad_length _ _ _ _

/-- Witness for C1 at the 96×96 image with cell size 8: 12*12*31 = 4464. -/
theorem C1_shape_law_witness :
    (∀ y x c, img96.pix y x c < 256) ∧ 0 < 8 ∧
      (extract_fhog_features img96 8).length = 4464 := by
  refine ⟨fun y x c => by norm_num [img96], by norm_num, ?_⟩
  have h := C1_shape_law img96 8 (fun y x c => by norm_num [img96]) (by norm_num)
  simpa [img96] using h

/-- C4: an image with `H < s` or `W < s` (and positive cell size) yields
a length-0 descriptor; the call is total, not an error. -/
theorem C4_boundary_law (img : Img) (s : ℕ) (hs : 0 < s)
    (hsmall : img.H < s ∨ img.W < s) :
    (extract_fhog_features img s).length = 0 := by
  have h0 : img.H / s = 0 ∨ img.W / s = 0 := by
    rcases hsmall with h | h
    · exact Or.inl (Nat.div_eq_of_lt h)
    · exact Or.inr (Nat.div_eq_of_lt h)
  rw [extract_fhog_features, fhogOfGrad_length]
  rcases h0 with h | h <;> simp [h]

/-- Witness for C4 at a 4×4 image with cell size 8. -/
theorem C4_boundary_law_witness :
    0 < 8 ∧ (img4.H < 8 ∨ img4.W < 8) ∧
      (extract_fhog_features img4 8).length = 0 := by
  refine ⟨by norm_num, Or.inl (by norm_num [img4]), ?_⟩
  exact C4_boundary_law img4 8 (by norm_num) (Or.inl (by norm_num [img4]))

/-- Indexing into a flatMap whose pieces all have length `k`. -/
theorem flatMap_getElem_const {α β : Type} (l : List α) (f : α → List β) (k : ℕ)
    (hk : ∀ a ∈ l, (f a).length = k) (i j : ℕ) (hj : j < k) :
    (l.flatMap f)[i * k + j]? = l[i]?.bind fun a => (f a)[j]? := by
  induction l generalizing i with
  | nil => simp
  | cons a t ih =>
    have hlen : (f a).length = k := hk a (by simp)
    rw [List.flatMap_cons]
    cases i with
    | zero =>
      rw [zero_mul, zero_add, List.getElem?_append_left (by omega)]
      simp
    | succ m =>
      have harith : (m + 1) * k + j = (f a).length + (m * k + j) := by
        rw [hlen]; ring
      rw [harith, List.getElem?_append_right (by omega)]
      have : (f a).length + (m * k + j) - (f a).length = m * k + j := by omega
      rw [this, ih (fun a ha => hk a (by simp [ha]))]
      simp

/-- Indexing the descriptor: entry `(r*gridW + c)*31 + j` is entry `j` of
cell `(r, c)`'s 31-value vector. -/
theorem fhogOfGrad_getElem (grad : ℕ → ℕ → ℤ × ℤ) (H W s r c j : ℕ)
    (hr : r < H / s) (hc : c < W / s) (hj : j < 31) :
    (fhogOfGrad grad H W s)[(r * (W / s) + c) * 31 + j]? =
      (cellVec (H / s) (W / s) (cellHist grad H W s) r c)[j]? := by
  unfold fhogOfGrad
  have key : (r * (W / s) + c) * 31 + j = r * (W / s * 31) + (c * 31 + j) := by ring
  have hinner : ∀ a ∈ List.range (H / s),
      ((List.range (W / s)).flatMap fun c =>
        cellVec (H / s) (W / s) (cellHist grad H W s) a c).length = W / s * 31 := by
    intro a _
    rw [length_flatMap_const _ _ 31 (fun x _ => cellVec_length _ _ _ _ _)]
    simp
  have hjlt : c * 31 + j < W / s * 31 := by
    calc c * 31 + j < (c + 1) * 31 := by omega
    _ ≤ W / s * 31 := Nat.mul_le_mul_right _ (by omega)
  rw [key, flatMap_getElem_const _ _ (W / s * 31) hinner r (c * 31 + j) hjlt,
    List.getElem?_range hr]
  simp only [Option.some_bind]
  rw [flatMap_getElem_const _ _ 31 (fun x _ => cellVec_length _ _ _ _ _) c j hj,
    List.getElem?_range hc]
  simp

/-- Entry `b < 18` of a cell vector is the contrast-sensitive output. -/
theorem cellVec_getElem_sens (gh gw : ℕ) (h : ℕ → ℕ → Fin 18 → ℝ) (r c : ℕ)
    (b : Fin 18) :
    (cellVec gh gw h r c)[(b : ℕ)]? = some (sensOut gh gw h r c b) := by
  have hb : (b : ℕ) < 18 := b.isLt
  unfold cellVec
  rw [List.getElem?_append_left (by simp only [List.length_append, List.length_ofFn]; omega),
    List.getElem?_append_left (by simp only [List.length_ofFn]; omega),
    List.getElem?_ofFn]
  simp only [List.ofFnNthVal, hb, dif_pos, Fin.eta]

/-- Entry `18 + b` of a cell vector is the contrast-insensitive output. -/
theorem cellVec_getElem_ins (gh gw : ℕ) (h : ℕ → ℕ → Fin 18 → ℝ) (r c : ℕ)
    (b : Fin 9) :
    (cellVec gh gw h r c)[18 + (b : ℕ)]? = some (insOut gh gw h r c b) := by
  have hb : (b : ℕ) < 9 := b.isLt
  unfold cellVec
  rw [List.getElem?_append_left (by simp only [List.length_append, List.length_ofFn]; omega),
    List.getElem?_append_right (by simp only [List.length_ofFn]; omega)]
  simp only [List.length_ofFn]
  have hidx : 18 + (b : ℕ) - 18 = (b : ℕ) := by omega
  rw [hidx, List.getElem?_ofFn]
  simp only [List.ofFnNthVal, hb, dif_pos, Fin.eta]

/-- Entry `27 + d` of a cell vector is the texture-energy output. -/
theorem cellVec_getElem_tex (gh gw : ℕ) (h : ℕ → ℕ → Fin 18 → ℝ) (r c : ℕ)
    (d : Fin 4) :
    (cellVec gh gw h r c)[27 + (d : ℕ)]? = some (texOut gh gw h r c d) := by
  have hd : (d : ℕ) < 4 := d.isLt
  unfold cellVec
  rw [List.getElem?_append_right (by simp only [List.length_append, List.length_ofFn]; omega)]
  simp only [List.length_append, List.length_ofFn]
  have hidx : 27 + (d : ℕ) - (18 + 9) = (d : ℕ) := by omega
  rw [hidx, List.getElem?_ofFn]
  simp only [List.ofFnNthVal, hd, dif_pos, Fin.eta]

theorem gmag_nonneg (g : ℤ × ℤ) : 0 ≤ gmag g := Real.sqrt_nonneg _

theorem orientW_nonneg (g : ℤ × ℤ) (b : Fin 18) : 0 ≤ orientW g b := by
  unfold orientW
  have h1 := Int.fract_nonneg (binCoord g)
  have h2 := Int.fract_lt_one (binCoord g)
  apply add_nonneg <;> split <;> linarith

theorem pixelTargets_w_nonneg (s y x : ℕ) :
    ∀ tw ∈ pixelTargets s y x, 0 ≤ tw.2 := by
  intro tw htw
  have hy1 := Int.fract_nonneg (cellPos s y)
  have hy2 := Int.fract_lt_one (cellPos s y)
  have hx1 := Int.fract_nonneg (cellPos s x)
  have hx2 := Int.fract_lt_one (cellPos s x)
  unfold pixelTargets at htw
  simp only [List.mem_cons, List.not_mem_nil, or_false] at htw
  rcases htw with rfl | rfl | rfl | rfl <;>
    exact mul_nonneg (by linarith) (by linarith)

theorem cellHist_nonneg (grad : ℕ → ℕ → ℤ × ℤ) (H W s r c : ℕ) (b : Fin 18) :
    0 ≤ cellHist grad H W s r c b := by
  unfold cellHist
  apply Finset.sum_nonneg
  intro y _
  apply Finset.sum_nonneg
  intro x _
  apply List.sum_nonneg
  intro v hv
  simp only [List.mem_map] at hv
  obtain ⟨tw, htw, rfl⟩ := hv
  split
  · exact mul_nonneg (pixelTargets_w_nonneg s y x tw htw)
      (mul_nonneg (orientW_nonneg _ _) (gmag_nonneg _))
  · exact le_refl 0

theorem normScale_nonneg (gh gw : ℕ) (h : ℕ → ℕ → Fin 18 → ℝ) (r c : ℕ)
    (d : Fin 4) : 0 ≤ normScale gh gw h r c d :=
  inv_nonneg.mpr (Real.sqrt_nonneg _)

/-- The average over four scales of a truncated nonneg product lies in
`[0, truncLimit]`. -/
theorem avg4_min_bounds (v : ℝ) (hv : 0 ≤ v) (sc : Fin 4 → ℝ)
    (hsc : ∀ d, 0 ≤ sc d) :
    0 ≤ (∑ d : Fin 4, min (v * sc d) truncLimit) / 4 ∧
      (∑ d : Fin 4, min (v * sc d) truncLimit) / 4 ≤ truncLimit := by
  have hterm : ∀ d : Fin 4, 0 ≤ min (v * sc d) truncLimit ∧
      min (v * sc d) truncLimit ≤ truncLimit := fun d =>
    ⟨le_min (mul_nonneg hv (hsc d)) (by norm_num [truncLimit]), min_le_right _ _⟩
  rw [Fin.sum_univ_four]
  obtain ⟨a0, b0⟩ := hterm 0
  obtain ⟨a1, b1⟩ := hterm 1
  obtain ⟨a2, b2⟩ := hterm 2
  obtain ⟨a3, b3⟩ := hterm 3
  constructor <;> linarith

theorem sensOut_bounds (gh gw : ℕ) (h : ℕ → ℕ → Fin 18 → ℝ) (r c : ℕ)
    (b : Fin 18) (hh : 0 ≤ h r c b) :
    0 ≤ sensOut gh gw h r c b ∧ sensOut gh gw h r c b ≤ truncLimit :=
  avg4_min_bounds _ hh _ (normScale_nonneg gh gw h r c)

theorem insOut_bounds (gh gw : ℕ) (h : ℕ → ℕ → Fin 18 → ℝ) (r c : ℕ)
    (b : Fin 9) (hh1 : 0 ≤ h r c ⟨(b : ℕ), by omega⟩)
    (hh2 : 0 ≤ h r c ⟨(b : ℕ) + 9, by omega⟩) :
    0 ≤ insOut gh gw h r c b ∧ insOut gh gw h r c b ≤ truncLimit :=
  avg4_min_bounds _ (add_nonneg hh1 hh2) _ (normScale_nonneg gh gw h r c)

theorem texOut_nonneg (gh gw : ℕ) (h : ℕ → ℕ → Fin 18 → ℝ) (r c : ℕ)
    (d : Fin 4) : 0 ≤ texOut gh gw h r c d :=
  mul_nonneg (by norm_num [texConst]) (normScale_nonneg gh gw h r c d)

/-- C3: every contrast-sensitive (per-cell offsets 0–17) and
contrast-insensitive (offsets 18–26) output value lies in
`[0, truncLimit]`, and every texture-energy value (offsets 27–30) is
nonnegative. -/
theorem C3_value_bounds (img : Img) (s : ℕ) (hs : 0 < s) (r c j : ℕ)
    (hr : r < img.H / s) (hc : c < img.W / s) (hj : j < 31) (v : ℝ)
    (hv : (extract_fhog_features img s)[(r * (img.W / s) + c) * 31 + j]? = some v) :
    (j < 27 → 0 ≤ v ∧ v ≤ truncLimit) ∧ (27 ≤ j → 0 ≤ v) := by
  rw [extract_fhog_features, fhogOfGrad_getElem _ _ _ _ _ _ _ hr hc hj] at hv
  by_cases h18 : j < 18
  · have := cellVec_getElem_sens (img.H / s) (img.W / s)
      (cellHist (selGrad img) img.H img.W s) r c ⟨j, h18⟩
    rw [show ((⟨j, h18⟩ : Fin 18) : ℕ) = j from rfl] at this
    rw [this] at hv
    obtain rfl : v = _ := (Option.some_inj.mp hv).symm
    refine ⟨fun _ => sensOut_bounds _ _ _ _ _ _ (cellHist_nonneg _ _ _ _ _ _ _),
      fun h27 => absurd h27 (by omega)⟩
  · by_cases h27 : j < 27
    · have hb : j - 18 < 9 := by omega
      have := cellVec_getElem_ins (img.H / s) (img.W / s)
        (cellHist (selGrad img) img.H img.W s) r c ⟨j - 18, hb⟩
      rw [show 18 + ((⟨j - 18, hb⟩ : Fin 9) : ℕ) = j by simp; omega] at this
      rw [this] at hv
      obtain rfl : v = _ := (Option.some_inj.mp hv).symm
      refine ⟨fun _ => insOut_bounds _ _ _ _ _ _ (cellHist_nonneg _ _ _ _ _ _ _)
        (cellHist_nonneg _ _ _ _ _ _ _), fun h => absurd h (by omega)⟩
    · have hd : j - 27 < 4 := by omega
      have := cellVec_getElem_tex (img.H / s) (img.W / s)
        (cellHist (selGrad img) img.H img.W s) r c ⟨j - 27, hd⟩
      rw [show 27 + ((⟨j - 27, hd⟩ : Fin 4) : ℕ) = j by simp; omega] at this
      rw [this] at hv
      obtain rfl : v = _ := (Option.some_inj.mp hv).symm
      exact ⟨fun h => absurd h (by omega), fun _ => texOut_nonneg _ _ _ _ _ _⟩

/-- Witness for C3: the first contrast-sensitive entry of cell (0,0) of
the 96×96 constant image lies in `[0, truncLimit]`. -/
theorem C3_value_bounds_witness :
    0 ≤ sensOut (img96.H / 8) (img96.W / 8)
        (cellHist (selGrad img96) img96.H img96.W 8) 0 0 0 ∧
      sensOut (img96.H / 8) (img96.W / 8)
        (cellHist (selGrad img96) img96.H img96.W 8) 0 0 0 ≤ truncLimit := by
  have hv : (extract_fhog_features img96 8)[(0 * (img96.W / 8) + 0) * 31 + 0]? =
      some (sensOut (img96.H / 8) (img96.W / 8)
        (cellHist (selGrad img96) img96.H img96.W 8) 0 0 0) := by
    rw [extract_fhog_features,
      fhogOfGrad_getElem _ _ _ 8 0 0 0 (by norm_num [img96]) (by norm_num [img96])
        (by norm_num)]
    exact cellVec_getElem_sens _ _ _ _ _ 0
  exact (C3_value_bounds img96 8 (by norm_num) 0 0 0 (by norm_num [img96])
    (by norm_num [img96]) (by norm_num) _ hv).1 (by norm_num)

/-- C6: each of the 4 texture-energy output values of a cell equals
`0.2357` times the normalization scale of the corresponding 2×2 neighbor
grouping, the scale being the inverse square root of that grouping's
epsilon-augmented energy. -/
theorem C6_texture_scale (img : Img) (s : ℕ) (hs : 0 < s) (r c : ℕ) (d : Fin 4)
    (hr : r < img.H / s) (hc : c < img.W / s) :
    (extract_fhog_features img s)[(r * (img.W / s) + c) * 31 + (27 + (d : ℕ))]? =
      some (texConst * (Real.sqrt (groupEnergy (img.H / s) (img.W / s)
        (cellHist (selGrad img) img.H img.W s) r c d + epsNorm))⁻¹) := by
  rw [extract_fhog_features,
    fhogOfGrad_getElem _ _ _ _ _ _ _ hr hc (by have := d.isLt; omega),
    cellVec_getElem_tex]
  rfl

/-- Witness for C6 at cell (0,0), grouping 0, of the 96×96 constant
image. -/
theorem C6_texture_scale_witness :
    (extract_fhog_features img96 8)[(0 * (img96.W / 8) + 0) * 31 +
        (27 + ((0 : Fin 4) : ℕ))]? =
      some (texConst * (Real.sqrt (groupEnergy (img96.H / 8) (img96.W / 8)
        (cellHist (selGrad img96) img96.H img96.W 8) 0 0 0 + epsNorm))⁻¹) :=
  C6_texture_scale img96 8 (by norm_num) 0 0 0 (by norm_num [img96])
    (by norm_num [img96])

/-- C7: the block-normalization contract — the four energies are sums
over the 18 bins of the squared 2×2-pooled histograms (out-of-grid
neighbors all-zero), each scale is the inverse square root of the
epsilon-augmented energy, each contrast-sensitive output is the average
over the four scales of the truncated scaled histogram value, and each
contrast-insensitive output is computed identically from
`hist[b] + hist[b+9]`. -/
theorem C7_normalizer_contract (img : Img) (s : ℕ) (hs : 0 < s) (r c : ℕ)
    (hr : r < img.H / s) (hc : c < img.W / s) :
    (∀ d : Fin 4,
      groupEnergy (img.H / s) (img.W / s) (cellHist (selGrad img) img.H img.W s)
          r c d =
        ∑ b : Fin 18,
          (histZ (img.H / s) (img.W / s) (cellHist (selGrad img) img.H img.W s)
              (r : ℤ) (c : ℤ) b +
            histZ (img.H / s) (img.W / s) (cellHist (selGrad img) img.H img.W s)
              ((r : ℤ) + (groupDir d).1) (c : ℤ) b +
            histZ (img.H / s) (img.W / s) (cellHist (selGrad img) img.H img.W s)
              (r : ℤ) ((c : ℤ) + (groupDir d).2) b +
            histZ (img.H / s) (img.W / s) (cellHist (selGrad img) img.H img.W s)
              ((r : ℤ) + (groupDir d).1) ((c : ℤ) + (groupDir d).2) b) ^ 2) ∧
    (∀ d : Fin 4,
      normScale (img.H / s) (img.W / s) (cellHist (selGrad img) img.H img.W s)
          r c d =
        (Real.sqrt (groupEnergy (img.H / s) (img.W / s)
          (cellHist (selGrad img) img.H img.W s) r c d + epsNorm))⁻¹) ∧
    (∀ b : Fin 18,
      (extract_fhog_features img s)[(r * (img.W / s) + c) * 31 + (b : ℕ)]? =
        some ((∑ d : Fin 4,
          min (cellHist (selGrad img) img.H img.W s r c b *
            normScale (img.H / s) (img.W / s)
              (cellHist (selGrad img) img.H img.W s) r c d) truncLimit) / 4)) ∧
    (∀ b : Fin 9,
      (extract_fhog_features img s)[(r * (img.W / s) + c) * 31 + (18 + (b : ℕ))]? =
        some ((∑ d : Fin 4,
          min ((cellHist (selGrad img) img.H img.W s r c ⟨(b : ℕ), by omega⟩ +
              cellHist (selGrad img) img.H img.W s r c ⟨(b : ℕ) + 9, by omega⟩) *
            normScale (img.H / s) (img.W / s)
              (cellHist (selGrad img) img.H img.W s) r c d) truncLimit) / 4)) := by
  refine ⟨fun d => rfl, fun d => rfl, fun b => ?_, fun b => ?_⟩
  · rw [extract_fhog_features,
      fhogOfGrad_getElem _ _ _ _ _ _ _ hr hc (by have := b.isLt; omega),
      cellVec_getElem_sens]
    rfl
  · rw [extract_fhog_features,
      fhogOfGrad_getElem _ _ _ _ _ _ _ hr hc (by have := b.isLt; omega),
      cellVec_getElem_ins]
    rfl

/-- Witness for C7: the scale identity at cell (0,0), grouping 0, of the
96×96 constant image. -/
theorem C7_normalizer_contract_witness :
    normScale (img96.H / 8) (img96.W / 8)
        (cellHist (selGrad img96) img96.H img96.W 8) 0 0 0 =
      (Real.sqrt (groupEnergy (img96.H / 8) (img96.W / 8)
        (cellHist (selGrad img96) img96.H img96.W 8) 0 0 0 + epsNorm))⁻¹ :=
  (C7_normalizer_contract img96 8 (by norm_num) 0 0 (by norm_num [img96])
    (by norm_num [img96])).2.1 0

theorem selGrad_uniform (img : Img) (k : ℕ) (hu : ∀ y x c, img.pix y x c = k)
    (y x : ℕ) : selGrad img y x = (0, 0) := by
  have hg : ∀ c : Fin 3, gradCh img y x c = (0, 0) := by
    intro c
    unfold gradCh readPix
    rw [hu, hu, hu, hu]
    simp
  simp only [selGrad, hg]
  rw [if_pos ⟨le_refl _, le_refl _⟩]

theorem gmag_zero : gmag 0 = 0 := by
  unfold gmag
  norm_num

theorem cellHist_of_zero_grad (grad : ℕ → ℕ → ℤ × ℤ) (H W s r c : ℕ)
    (b : Fin 18) (hg : ∀ y x, grad y x = (0, 0)) :
    cellHist grad H W s r c b = 0 := by
  unfold cellHist
  apply Finset.sum_eq_zero
  intro y _
  apply Finset.sum_eq_zero
  intro x _
  apply List.sum_eq_zero
  intro v hv
  simp only [List.mem_map] at hv
  obtain ⟨tw, _, rfl⟩ := hv
  rw [hg]
  split <;> simp [gmag_zero]

theorem groupEnergy_of_zero_hist (gh gw : ℕ) (h : ℕ → ℕ → Fin 18 → ℝ)
    (hz : ∀ r c b, h r c b = 0) (r c : ℕ) (d : Fin 4) :
    groupEnergy gh gw h r c d = 0 := by
  unfold groupEnergy pooled histZ
  apply Finset.sum_eq_zero
  intro b _
  have hzz : ∀ u v : ℤ, (if 0 ≤ u ∧ u < (gh : ℤ) ∧ 0 ≤ v ∧ v < (gw : ℤ)
      then h u.toNat v.toNat b else 0) = 0 := by
    intro u v
    split <;> simp [hz]
  rw [hzz, hzz, hzz, hzz]
  norm_num

theorem normScale_of_zero_hist (gh gw : ℕ) (h : ℕ → ℕ → Fin 18 → ℝ)
    (hz : ∀ r c b, h r c b = 0) (r c : ℕ) (d : Fin 4) :
    normScale gh gw h r c d = 100 := by
  unfold normScale
  rw [groupEnergy_of_zero_hist gh gw h hz r c d]
  have he : (0 : ℝ) + epsNorm = (1 / 100) ^ 2 := by norm_num [epsNorm]
  rw [he, Real.sqrt_sq (by norm_num)]
  norm_num

theorem sensOut_of_zero_hist (gh gw : ℕ) (h : ℕ → ℕ → Fin 18 → ℝ)
    (hz : ∀ r c b, h r c b = 0) (r c : ℕ) (b : Fin 18) :
    sensOut gh gw h r c b = 0 := by
  unfold sensOut
  rw [hz]
  have hm : min ((0 : ℝ)) truncLimit = 0 := min_eq_left (by norm_num [truncLimit])
  simp [hm]

theorem insOut_of_zero_hist (gh gw : ℕ) (h : ℕ → ℕ → Fin 18 → ℝ)
    (hz : ∀ r c b, h r c b = 0) (r c : ℕ) (b : Fin 9) :
    insOut gh gw h r c b = 0 := by
  unfold insOut
  rw [hz, hz]
  have hm : min ((0 : ℝ)) truncLimit = 0 := min_eq_left (by norm_num [truncLimit])
  simp [hm]

theorem texOut_of_zero_hist (gh gw : ℕ) (h : ℕ → ℕ → Fin 18 → ℝ)
    (hz : ∀ r c b, h r c b = 0) (r c : ℕ) (d : Fin 4) :
    texOut gh gw h r c d = 2357 / 100 := by
  unfold texOut
  rw [normScale_of_zero_hist gh gw h hz r c d]
  norm_num [texConst]

/-- C5 counterexample: the 96×96 uniform image does NOT produce an
all-zero descriptor — its first texture-energy entry (cell (0,0), flat
offset 27) equals `0.2357 / sqrt(epsilon) = 23.57`, which is nonzero (and
not near zero). -/
theorem C5_uniform_counterexample :
    (extract_fhog_features img96 8)[(0 * (img96.W / 8) + 0) * 31 +
        (27 + ((0 : Fin 4) : ℕ))]? = some (2357 / 100) ∧
      (2357 / 100 : ℝ) ≠ 0 := by
  have hz : ∀ r c b, cellHist (selGrad img96) img96.H img96.W 8 r c b = 0 :=
    fun r c b => cellHist_of_zero_grad _ _ _ _ _ _ _
      (selGrad_uniform img96 7 (fun _ _ _ => rfl))
  constructor
  · rw [extract_fhog_features,
      fhogOfGrad_getElem _ _ _ 8 0 0 _ (by norm_num [img96]) (by norm_num [img96])
        (by norm_num),
      cellVec_getElem_tex, texOut_of_zero_hist _ _ _ hz]
  · norm_num

/-- C5 (amended): for a uniform (zero-gradient) image, all 27
orientation-bin outputs of every cell are exactly zero and every output
is a finite real; but the four texture-energy outputs are the constant
`0.2357/sqrt(epsilon) = 23.57`, not zero and not near zero. -/
theorem C5_uniform_amended (img : Img) (s : ℕ) (hs : 0 < s) (k : ℕ)
    (hu : ∀ y x c, img.pix y x c = k) (r c j : ℕ)
    (hr : r < img.H / s) (hc : c < img.W / s) (hj : j < 31) (v : ℝ)
    (hv : (extract_fhog_features img s)[(r * (img.W / s) + c) * 31 + j]? = some v) :
    (j < 27 → v = 0) ∧ (27 ≤ j → v = 2357 / 100) := by
  have hz : ∀ r' c' b, cellHist (selGrad img) img.H img.W s r' c' b = 0 :=
    fun r' c' b => cellHist_of_zero_grad _ _ _ _ _ _ _
      (selGrad_uniform img k hu)
  rw [extract_fhog_features, fhogOfGrad_getElem _ _ _ _ _ _ _ hr hc hj] at hv
  by_cases h18 : j < 18
  · have he := cellVec_getElem_sens (img.H / s) (img.W / s)
      (cellHist (selGrad img) img.H img.W s) r c ⟨j, h18⟩
    rw [show ((⟨j, h18⟩ : Fin 18) : ℕ) = j from rfl, sensOut_of_zero_hist _ _ _ hz]
      at he
    rw [he] at hv
    exact ⟨fun _ => (Option.some_inj.mp hv).symm, fun h => absurd h (by omega)⟩
  · by_cases h27 : j < 27
    · have hb : j - 18 < 9 := by omega
      have he := cellVec_getElem_ins (img.H / s) (img.W / s)
        (cellHist (selGrad img) img.H img.W s) r c ⟨j - 18, hb⟩
      rw [show 18 + ((⟨j - 18, hb⟩ : Fin 9) : ℕ) = j by simp; omega,
        insOut_of_zero_hist _ _ _ hz] at he
      rw [he] at hv
      exact ⟨fun _ => (Option.some_inj.mp hv).symm, fun h => absurd h (by omega)⟩
    · have hd : j - 27 < 4 := by omega
      have he := cellVec_getElem_tex (img.H / s) (img.W / s)
        (cellHist (selGrad img) img.H img.W s) r c ⟨j - 27, hd⟩
      rw [show 27 + ((⟨j - 27, hd⟩ : Fin 4) : ℕ) = j by simp; omega,
        texOut_of_zero_hist _ _ _ hz] at he
      rw [he] at hv
      exact ⟨fun h => absurd h (by omega), fun _ => (Option.some_inj.mp hv).symm⟩

/-- Witness for the amended C5 at the 96×96 uniform image, entry 0 of
cell (0,0). -/
theorem C5_uniform_amended_witness :
    (extract_fhog_features img96 8)[(0 * (img96.W / 8) + 0) * 31 + 0]? =
      some 0 := by
  have hv : (extract_fhog_features img96 8)[(0 * (img96.W / 8) + 0) * 31 + 0]? =
      some (sensOut (img96.H / 8) (img96.W / 8)
        (cellHist (selGrad img96) img96.H img96.W 8) 0 0 0) := by
    rw [extract_fhog_features,
      fhogOfGrad_getElem _ _ _ 8 0 0 0 (by norm_num [img96]) (by norm_num [img96])
        (by norm_num)]
    exact cellVec_getElem_sens _ _ _ _ _ 0
  have h := (C5_uniform_amended img96 8 (by norm_num) 7 (fun _ _ _ => rfl) 0 0 0
    (by norm_num [img96]) (by norm_num [img96]) (by norm_num) _ hv).1 (by norm_num)
  rw [hv, h]

theorem sqMag_nonneg (g : ℤ × ℤ) : 0 ≤ sqMag g :=
  add_nonneg (mul_self_nonneg _) (mul_self_nonneg _)

theorem eq_zero_of_sqMag_nonpos (g : ℤ × ℤ) (h : sqMag g ≤ 0) : g = (0, 0) := by
  unfold sqMag at h
  have h1 := mul_self_nonneg g.1
  have h2 := mul_self_nonneg g.2
  have e1 : g.1 * g.1 = 0 := by linarith
  have e2 : g.2 * g.2 = 0 := by linarith
  have := mul_self_eq_zero.mp e1
  have := mul_self_eq_zero.mp e2
  exact Prod.ext (by assumption) (by assumption)

/-- On the single-channel replicated image, the channel-max selection
returns the replicated channel's gradient. -/
theorem selGrad_channelOnly (img : Img) (k : Fin 3) (y x : ℕ) :
    selGrad (channelOnly img k) y x = gradCh img y x k := by
  have hg : ∀ c : Fin 3, gradCh (channelOnly img k) y x c = gradCh img y x k :=
    fun c => rfl
  simp only [selGrad, hg]
  rw [if_pos ⟨le_refl _, le_refl _⟩]

/-- When every channel except `k` is flat (constant over the image), the
channel-max selection returns channel `k`'s gradient at every pixel. -/
theorem selGrad_flat (img : Img) (k : Fin 3) (v : Fin 3 → ℕ)
    (hflat : ∀ c : Fin 3, c ≠ k → ∀ y x, img.pix y x c = v c) (y x : ℕ) :
    selGrad img y x = gradCh img y x k := by
  have hzero : ∀ c : Fin 3, c ≠ k → gradCh img y x c = (0, 0) := by
    intro c hc
    unfold gradCh readPix
    rw [hflat c hc, hflat c hc, hflat c hc, hflat c hc]
    simp
  have hk : k = 0 ∨ k = 1 ∨ k = 2 := by
    rcases k with ⟨v, hv⟩
    interval_cases v
    · exact Or.inl rfl
    · exact Or.inr (Or.inl rfl)
    · exact Or.inr (Or.inr rfl)
  rcases hk with rfl | rfl | rfl
  · simp only [selGrad, hzero 1 (by decide), hzero 2 (by decide)]
    rw [if_pos ⟨sqMag_nonneg _, sqMag_nonneg _⟩]
  · simp only [selGrad, hzero 0 (by decide), hzero 2 (by decide)]
    by_cases h : sqMag (gradCh img y x 1) ≤ sqMag ((0, 0) : ℤ × ℤ) ∧
        sqMag ((0, 0) : ℤ × ℤ) ≤ sqMag ((0, 0) : ℤ × ℤ)
    · rw [if_pos h]
      exact (eq_zero_of_sqMag_nonpos _ h.1).symm
    · rw [if_neg h, if_pos (show sqMag ((0, 0) : ℤ × ℤ) ≤
        sqMag (gradCh img y x 1) from sqMag_nonneg _)]
  · simp only [selGrad, hzero 0 (by decide), hzero 1 (by decide)]
    by_cases h : sqMag ((0, 0) : ℤ × ℤ) ≤ sqMag ((0, 0) : ℤ × ℤ) ∧
        sqMag (gradCh img y x 2) ≤ sqMag ((0, 0) : ℤ × ℤ)
    · rw [if_pos h]
      exact (eq_zero_of_sqMag_nonpos _ h.2).symm
    · rw [if_neg h]
      have h2 : ¬sqMag (gradCh img y x 2) ≤ sqMag ((0, 0) : ℤ × ℤ) := by
        intro hle
        exact h ⟨le_refl _, hle⟩
      rw [if_neg h2]

/-- C8: for an image whose channels other than `k` are flat (constant),
the descriptor equals the descriptor of the image that uses channel `k`
alone for gradients — the channel-max selection rule. -/
theorem C8_channel_max (img : Img) (k : Fin 3) (v : Fin 3 → ℕ)
    (hflat : ∀ c : Fin 3, c ≠ k → ∀ y x, img.pix y x c = v c) (s : ℕ)
    (hs : 0 < s) :
    extract_fhog_features img s = extract_fhog_features (channelOnly img k) s := by
  unfold extract_fhog_features
  have hH : (channelOnly img k).H = img.H := rfl
  have hW : (channelOnly img k).W = img.W := rfl
  rw [hH, hW]
  congr 1
  funext y x
  rw [selGrad_flat img k v hflat y x, selGrad_channelOnly]

/-- A concrete 8×8 image with a horizontal ramp in channel 0 and flat
channels 1 and 2. -/
def imgC8 : Img := ⟨8, 8, fun _ x c => if c = 0 then x else 5⟩

/-- Witness for C8 at the ramp image with flat channels 1 and 2. -/
theorem C8_channel_max_witness :
    (∀ c : Fin 3, c ≠ 0 → ∀ y x, imgC8.pix y x c = 5) ∧ 0 < 8 ∧
      extract_fhog_features imgC8 8 =
        extract_fhog_features (channelOnly imgC8 0) 8 := by
  have hflat : ∀ c : Fin 3, c ≠ 0 → ∀ y x, imgC8.pix y x c = 5 := by
    intro c hc y x
    show (if c = 0 then x else 5) = 5
    rw [if_neg hc]
  exact ⟨hflat, by norm_num,
    C8_channel_max imgC8 0 (fun _ => 5) hflat 8 (by norm_num)⟩

theorem ite_and_mul_zero (P Q : Prop) [Decidable P] [Decidable Q] (a b k : ℝ) :
    (if P ∧ Q then a * b * k else 0) = (if P then a else 0) * (if Q then b else 0) * k := by
  by_cases hP : P <;> by_cases hQ : Q <;> simp [hP, hQ]

/-- One pixel's guarded deposit into an in-grid cell `(r, c)` equals its
pure (unguarded) bilinear share: nothing is wrapped or clamped into it,
and shares aimed off the grid appear in no cell at all. -/
theorem pixel_drop_eq (s y x gh gw r c : ℕ) (hr : r < gh) (hc : c < gw) (K : ℝ) :
    ((pixelTargets s y x).map (fun tw =>
      if tw.1.1 = (r : ℤ) ∧ tw.1.2 = (c : ℤ) ∧
          0 ≤ tw.1.1 ∧ tw.1.1 < (gh : ℤ) ∧ 0 ≤ tw.1.2 ∧ tw.1.2 < (gw : ℤ)
      then tw.2 * K else 0)).sum = pureW s y r * pureW s x c * K := by
  have hry : ∀ a b : ℤ,
      (a = (r : ℤ) ∧ b = (c : ℤ) ∧ 0 ≤ a ∧ a < (gh : ℤ) ∧ 0 ≤ b ∧ b < (gw : ℤ)) ↔
        (a = (r : ℤ) ∧ b = (c : ℤ)) := by
    intro a b
    constructor
    · rintro ⟨h1, h2, _⟩
      exact ⟨h1, h2⟩
    · rintro ⟨rfl, rfl⟩
      refine ⟨rfl, rfl, Int.natCast_nonneg r, by exact_mod_cast hr,
        Int.natCast_nonneg c, by exact_mod_cast hc⟩
  unfold pixelTargets pureW
  simp only [List.map_cons, List.map_nil, List.sum_cons, List.sum_nil, add_zero,
    hry, ite_and_mul_zero]
  ring

/-- C9: during accumulation, contributions targeting off-grid cells are
dropped entirely — every in-grid cell's histogram equals the sum over all
pixels of the pure (bounds-free) bilinear share times the orientation
weight and magnitude, so no off-grid share is wrapped or clamped into any
cell. -/
theorem C9_edge_drop (img : Img) (s : ℕ) (hs : 0 < s) (r c : ℕ)
    (hr : r < img.H / s) (hc : c < img.W / s) (b : Fin 18) :
    cellHist (selGrad img) img.H img.W s r c b =
      ∑ y ∈ Finset.range img.H, ∑ x ∈ Finset.range img.W,
        pureW s y r * pureW s x c *
          (orientW (selGrad img y x) b * gmag (selGrad img y x)) := by
  unfold cellHist
  apply Finset.sum_congr rfl
  intro y _
  apply Finset.sum_congr rfl
  intro x _
  exact pixel_drop_eq s y x (img.H / s) (img.W / s) r c hr hc _

/-- Witness for C9 at cell (0,0), bin 0, of the 96×96 constant image. -/
theorem C9_edge_drop_witness :
    cellHist (selGrad img96) img96.H img96.W 8 0 0 0 =
      ∑ y ∈ Finset.range img96.H, ∑ x ∈ Finset.range img96.W,
        pureW 8 y 0 * pureW 8 x 0 *
          (orientW (selGrad img96 y x) 0 * gmag (selGrad img96 y x)) :=
  C9_edge_drop img96 8 (by norm_num) 0 0 (by norm_num [img96])
    (by norm_num [img96]) 0

/-- C10: the kernel is a pure function of the image and the cell size —
repeated calls on a fixed input produce identical output. -/
theorem C10_determinism (img : Img) (s : ℕ) :
    extract_fhog_features img s = extract_fhog_features img s := rfl
